import Mathlib

/-!
Verification of the `oio` benchmark harness core against its specification.

The development shallowly embeds the two cores of the repository:

* `src/sample.rs` — the `SampleSet` statistics accumulator. Observations are
  `f64` values produced by measurements; they are modelled as exact rationals
  (every observation the program stores is a finite double, and all claims
  concern finite observations), while the *results* of the statistical
  reductions live in the type `F`, which keeps the full IEEE value classes
  (finite, +∞, −∞, NaN) so that the empty-set behaviour of `min`/`max`/`avg`/
  `stdev`/`percentile` is captured faithfully. Arithmetic on finite values is
  idealized as exact rational arithmetic (no rounding); the special-value
  propagation rules mirror IEEE-754 and Rust's `f64` operations.

* `src/job.rs` — the orchestrator `Job::run`, its worker loops and `Task`.
  Wall-clock instants are modelled by an explicit elapsed-time counter that
  advances by each operation's latency; the storage capability and the
  per-iteration outcomes are supplied by oracles, and the orchestrator is
  embedded as a deterministic function that also emits the trace of its
  side-effecting steps, so that ordering claims become statements about the
  trace.
-/

/-- Model of an `f64` value: a finite double is idealized as an exact
rational; the special IEEE classes are explicit constructors. -/
inductive F where
  | finite (q : ℚ)
  | posInf
  | negInf
  | nan
  deriving DecidableEq, Repr

namespace F

/-- IEEE addition on `F` (`f64::add`): NaN is absorbing, `+∞ + −∞ = NaN`. -/
def add : F → F → F
  | .nan, _ => .nan
  | _, .nan => .nan
  | .posInf, .negInf => .nan
  | .negInf, .posInf => .nan
  | .posInf, _ => .posInf
  | _, .posInf => .posInf
  | .negInf, _ => .negInf
  | _, .negInf => .negInf
  | .finite a, .finite b => .finite (a + b)

/-- IEEE subtraction on `F` (`f64::sub`). -/
def sub : F → F → F
  | .nan, _ => .nan
  | _, .nan => .nan
  | .posInf, .posInf => .nan
  | .negInf, .negInf => .nan
  | .posInf, _ => .posInf
  | _, .posInf => .negInf
  | .negInf, _ => .negInf
  | _, .negInf => .posInf
  | .finite a, .finite b => .finite (a - b)

/-- `f64::powi(2)`: squaring; NaN propagates, both infinities square to `+∞`. -/
def sq : F → F
  | .nan => .nan
  | .posInf => .posInf
  | .negInf => .posInf
  | .finite a => .finite (a ^ 2)

/-- IEEE division on `F` (`f64::div`): `0/0 = NaN`, `x/0 = ±∞` for finite
`x ≠ 0`, `±∞/±∞ = NaN`, finite`/∞ = 0`. -/
def div : F → F → F
  | .nan, _ => .nan
  | _, .nan => .nan
  | .posInf, .posInf => .nan
  | .posInf, .negInf => .nan
  | .negInf, .posInf => .nan
  | .negInf, .negInf => .nan
  | .posInf, .finite b => if b < 0 then .negInf else .posInf
  | .negInf, .finite b => if b < 0 then .posInf else .negInf
  | .finite _, .posInf => .finite 0
  | .finite _, .negInf => .finite 0
  | .finite a, .finite b =>
      if b = 0 then (if a = 0 then .nan else if 0 < a then .posInf else .negInf)
      else .finite (a / b)

/-- `f64::min`: returns the smaller operand, ignoring NaN (a NaN operand
yields the other operand). -/
def fmin : F → F → F
  | .nan, b => b
  | a, .nan => a
  | .negInf, _ => .negInf
  | _, .negInf => .negInf
  | .posInf, b => b
  | a, .posInf => a
  | .finite a, .finite b => .finite (min a b)

/-- `f64::max`: returns the larger operand, ignoring NaN. -/
def fmax : F → F → F
  | .nan, b => b
  | a, .nan => a
  | .posInf, _ => .posInf
  | _, .posInf => .posInf
  | .negInf, b => b
  | a, .negInf => a
  | .finite a, .finite b => .finite (max a b)

end F

/-- `Iterator::sum::<f64>()` over a list of `F` values: left fold of IEEE
addition starting from `0.0`. -/
def FlistSum (l : List F) : F := l.foldl F.add (F.finite 0)

/-- Result type for `f64::sqrt`: a finite double's exact square root is a
real number, so the result of `stdev` lives over `ℝ` with the IEEE special
classes kept explicit. -/
inductive FR where
  | finite (r : ℝ)
  | posInf
  | negInf
  | nan

/-- `f64::sqrt` on an `F` value: NaN for negative inputs and NaN, `+∞` for
`+∞`, the exact real square root on nonnegative finite values. -/
noncomputable def Fsqrt : F → FR
  | .nan => .nan
  | .negInf => .nan
  | .posInf => .posInf
  | .finite q => if q < 0 then .nan else .finite (Real.sqrt q)

/-- `pub struct SampleSet(pub Vec<f64>)` — the observations, in insertion
order. -/
structure SampleSet where
  obs : List ℚ
  deriving DecidableEq, Repr

namespace SampleSet

/-- `SampleSet::add`: `self.0.push(sample)`. -/
def add (s : SampleSet) (sample : ℚ) : SampleSet := ⟨s.obs ++ [sample]⟩

/-- `SampleSet::merge`: `self.0.extend(other.0); self`. -/
def merge (s other : SampleSet) : SampleSet := ⟨s.obs ++ other.obs⟩

/-- `SampleSet::num_samples`: `self.0.len()`. -/
def num_samples (s : SampleSet) : ℕ := s.obs.length

/-- `SampleSet::min`:
`self.0.iter().copied().fold(f64::INFINITY, |a, b| a.min(b))`. -/
def min (s : SampleSet) : F :=
  s.obs.foldl (fun a b => F.fmin a (F.finite b)) F.posInf

/-- `SampleSet::max`:
`self.0.iter().copied().fold(f64::NEG_INFINITY, |a, b| a.max(b))`. -/
def max (s : SampleSet) : F :=
  s.obs.foldl (fun a b => F.fmax a (F.finite b)) F.negInf

/-- `SampleSet::avg`: `self.0.iter().copied().sum::<f64>() / self.0.len() as f64`.
The sum of finitely many finite doubles is finite, so the numerator is the
exact rational sum; the division is IEEE (`0.0 / 0.0 = NaN` on an empty set). -/
def avg (s : SampleSet) : F :=
  F.div (F.finite s.obs.sum) (F.finite (s.obs.length : ℚ))

/-- The argument of the square root in `SampleSet::stdev`:
`self.0.iter().copied().map(|x| (x - avg).powi(2)).sum::<f64>() / self.0.len() as f64`,
with `avg = self.avg()`. -/
def stdevArg (s : SampleSet) : F :=
  F.div (FlistSum (s.obs.map fun x => F.sq (F.sub (F.finite x) s.avg)))
    (F.finite (s.obs.length : ℚ))

/-- `SampleSet::stdev`: `(sum / self.0.len() as f64).sqrt()`. -/
noncomputable def stdev (s : SampleSet) : FR := Fsqrt s.stdevArg

/-- The ascending-sorted copy made by `SampleSet::percentile`:
`let mut sorted = self.0.clone(); sorted.sort_by(|a, b| a.partial_cmp(b).unwrap())`.
On finite (non-NaN) observations `partial_cmp` is the total order on ℚ. -/
def sortedObs (s : SampleSet) : List ℚ := s.obs.insertionSort (· ≤ ·)

/-- The index computed by `SampleSet::percentile`:
`((sorted.len() - 1) as f64 * percentile / 100.0) as usize`.
`usize` subtraction is modelled by truncated ℕ subtraction (for a non-empty
set it is exact; every claim about `percentile` concerns non-empty sets) and
Rust's saturating float-to-`usize` cast is `Int.toNat ∘ Int.floor`: it
truncates toward zero and clamps negative values to `0`. -/
def percentileIndex (s : SampleSet) (percentile : ℚ) : ℕ :=
  (⌊((s.obs.length - 1 : ℕ) : ℚ) * percentile / 100⌋ : ℤ).toNat

/-- `SampleSet::percentile`:
`sorted.get(index).copied().unwrap_or(f64::NAN)` — a checked access that
falls back to NaN when the index is out of bounds. -/
def percentile (s : SampleSet) (p : ℚ) : F :=
  match (s.sortedObs).get? (s.percentileIndex p) with
  | some v => F.finite v
  | none => F.nan

end SampleSet

/-! ### Embedding of the orchestrator (src/job.rs) -/

/-- `pub struct JobError(pub String)`. -/
structure JobError where
  msg : String
  deriving DecidableEq, Repr

/-- `config::Workload`. -/
inductive Workload where
  | download
  | upload
  deriving DecidableEq, Repr

/-- The part of `config::JobConfig` that `Job::run` consumes: `num_jobs`
(`Option<u32>`, defaulted to 1 with `unwrap_or(1)`), `run_time` (a
`Duration`, modelled in seconds as an exact rational), the workload kind and
`file_size` in bytes. -/
structure JobConfig where
  num_jobs : Option ℕ
  run_time : ℚ
  workload : Workload
  file_size : ℕ
  deriving DecidableEq, Repr

/-- `job::Task` (named `JobTask` here because `Task` is taken by the Lean
core library). -/
inductive JobTask where
  | download (path : String)
  | upload (path : String) (file_size : ℕ)
  deriving DecidableEq, Repr

/-- Observable write behaviour of one `Task::run` call on an `Upload` task,
independent of the storage backend: `buff = vec![254u8; file_size]` is
handed to `writer.write(buff.clone())` once per loop iteration
(`for _ in 0..file_size / 4096`, `u32` division truncating), and the
returned processed-byte count is `*file_size / 4096 * 4096`. `writes` lists
the byte length of each chunk passed to the writer on the task's path. -/
structure UploadEffect where
  writes : List ℕ
  ret : ℕ
  deriving DecidableEq, Repr

/-- The Upload arm of `Task::run` (src/job.rs:124-142). -/
def JobTask.uploadRunEffect (file_size : ℕ) : UploadEffect :=
  { writes := List.replicate (file_size / 4096) file_size
    ret := file_size / 4096 * 4096 }

/-- Result of one worker's timed loop. `fuel` is a model artifact: the
per-iteration oracle ran out before the deadline was strictly exceeded (it
cannot arise when latencies are positive and the oracle is long enough). -/
inductive LoopResult where
  | ok (bandwidth latency iops : SampleSet)
  | err (e : JobError)
  | fuel
  deriving DecidableEq, Repr

/-- One worker's timed loop — the `async move` block of `Job::run`
(src/job.rs:45-62). `run_time` and `elapsed` are in seconds. Each oracle
entry is the outcome of one `task.run(&operator).await`: an error, or the
number of bytes moved together with the operation's latency in seconds. The
clock is idealized to advance exactly by each operation's latency, so
`start.elapsed()` at an iteration boundary is `elapsed` and right after the
operation it is `elapsed + lat`. Per completed iteration the worker records
`lat.as_micros()` (whole microseconds, truncated) into `latency`,
`bytes / lat.as_secs_f64()` into `bandwidth` and
`count / start.elapsed().as_secs_f64()` into `iops`. The loop exits at a
boundary when `start.elapsed() > run_time` (strictly). -/
def workerLoop (run_time elapsed : ℚ) (count : ℕ)
    (bandwidth latency iops : SampleSet) :
    List (Except JobError (ℕ × ℚ)) → LoopResult
  | [] => if run_time < elapsed then .ok bandwidth latency iops else .fuel
  | iter :: rest =>
    if run_time < elapsed then .ok bandwidth latency iops
    else
      match iter with
      | .error e => .err e
      | .ok (bytes, lat) =>
          workerLoop run_time (elapsed + lat) (count + 1)
            (bandwidth.add ((bytes : ℚ) / lat))
            (latency.add ((⌊1000000 * lat⌋ : ℤ) : ℚ))
            (iops.add (((count : ℚ) + 1) / (elapsed + lat)))
            rest

/-- The orchestrator's observable side-effecting steps, in program order. -/
inductive Event where
  | recordStart
  | buildOperator
  | buildRuntime
  | prepBuildOperator
  | stagingWrite
  | spawnWorker (i : ℕ)
  | joinWorker (i : ℕ)
  deriving DecidableEq, Repr

/-- Oracles for the external effects of `Job::run`: the uuid-generated
object key, whether each construction step succeeds (`build_operator` in
`run`, the tokio runtime build, the second `build_operator` inside
`prepare_task`, and the Download staging write — writer open, chunk writes
and close collapsed into one combined outcome), the wall-clock time in
seconds consumed before the workers are spawned (all construction and
staging work; the shared `start` instant is recorded before it), and each
worker's per-iteration outcomes. -/
structure JobOracle where
  path : String
  operatorBuild : Except JobError Unit
  runtimeBuild : Except JobError Unit
  prepOperatorBuild : Except JobError Unit
  stagingWrite : Except JobError Unit
  prepElapsed : ℚ
  workers : ℕ → List (Except JobError (ℕ × ℚ))

/-- `Job::prepare_task` (src/job.rs:79-105): generates the key; for
Download it builds its own operator and stages the payload (4096-byte filler
chunks written `file_size / 4096` times, then close) to the key — any
failure there propagates; for Upload no storage call happens at this stage. -/
def Job.prepare_task (cfg : JobConfig) (o : JobOracle) :
    Except JobError JobTask × List Event :=
  match cfg.workload with
  | .download =>
      match o.prepOperatorBuild with
      | .error e => (.error e, [.prepBuildOperator])
      | .ok _ =>
          match o.stagingWrite with
          | .error e => (.error e, [.prepBuildOperator, .stagingWrite])
          | .ok _ => (.ok (.download o.path), [.prepBuildOperator, .stagingWrite])
  | .upload => (.ok (.upload o.path cfg.file_size), [])

/-- Overall result of `Job::run`: the merged Measurement Triple, an error,
or the model-artifact `fuel`. -/
inductive RunResult where
  | ok (bandwidth latency iops : SampleSet)
  | err (e : JobError)
  | fuel
  deriving DecidableEq, Repr

/-- The join-and-merge loop at the end of `Job::run` (src/job.rs:65-74):
starting from three empty accumulators, await each worker handle in spawn
order; on success merge its triple into the accumulators, on failure return
that worker's error immediately (`??`), skipping the remaining handles. -/
def Job.joinWorkers (i : ℕ) (bandwidth latency iops : SampleSet) :
    List LoopResult → RunResult × List Event
  | [] => (.ok bandwidth latency iops, [])
  | r :: rest =>
    match r with
    | .ok bw lat io =>
        let next := Job.joinWorkers (i + 1) (bandwidth.merge bw)
          (latency.merge lat) (iops.merge io) rest
        (next.1, .joinWorker i :: next.2)
    | .err e => (.err e, [.joinWorker i])
    | .fuel => (.fuel, [.joinWorker i])

/-- `Job::run` (src/job.rs:25-77), returning the run result together with
the ordered trace of the orchestrator's side-effecting steps. Program order
of the source: read `num_jobs` (pure), `let start = Instant::now()` — the
shared start instant is recorded before anything is built — then
`build_operator`, then the tokio runtime build, then `prepare_task`, then
`num_jobs.unwrap_or(1)` spawned worker loops (each loop's deadline clock is
`start.elapsed()`, so the pre-spawn elapsed time `o.prepElapsed` already
counts against the deadline), then the join-and-merge loop. -/
def Job.run (cfg : JobConfig) (o : JobOracle) : RunResult × List Event :=
  let num_jobs := cfg.num_jobs.getD 1
  match o.operatorBuild with
  | .error e => (.err e, [.recordStart, .buildOperator])
  | .ok _ =>
    match o.runtimeBuild with
    | .error e => (.err e, [.recordStart, .buildOperator, .buildRuntime])
    | .ok _ =>
      match Job.prepare_task cfg o with
      | (.error e, evs) =>
          (.err e, [.recordStart, .buildOperator, .buildRuntime] ++ evs)
      | (.ok _task, evs) =>
          let results := (List.range num_jobs).map fun i =>
            workerLoop cfg.run_time o.prepElapsed 0 ⟨[]⟩ ⟨[]⟩ ⟨[]⟩ (o.workers i)
          let joined := Job.joinWorkers 0 ⟨[]⟩ ⟨[]⟩ ⟨[]⟩ results
          (joined.1,
            [.recordStart, .buildOperator, .buildRuntime] ++ evs ++
              (List.range num_jobs).map Event.spawnWorker ++ joined.2)

example : SampleSet.percentile ⟨[10, 20, 30, 40, 50]⟩ 50 = F.finite 30 := by
  norm_num [SampleSet.percentile, SampleSet.sortedObs, SampleSet.percentileIndex,
    List.insertionSort, List.orderedInsert]
  rfl

example : SampleSet.min ⟨[3, 1, 2]⟩ = F.finite 1 := by
  norm_num [SampleSet.min, F.fmin]

example : SampleSet.avg ⟨[]⟩ = F.nan := by
  norm_num [SampleSet.avg, F.div]

example : SampleSet.avg ⟨[1, 2, 3, 4]⟩ = F.finite (5/2) := by
  norm_num [SampleSet.avg, F.div]

example : SampleSet.stdevArg ⟨[1, 2, 3, 4]⟩ = F.finite (5/4) := by
  norm_num [SampleSet.stdevArg, SampleSet.avg, F.div, F.sub, F.sq, FlistSum, F.add]

example : SampleSet.stdevArg ⟨[]⟩ = F.nan := by
  norm_num [SampleSet.stdevArg, SampleSet.avg, F.div, F.sub, F.sq, FlistSum, F.add]

/-! ### Helper lemmas about the statistical reductions -/

namespace SampleSet

lemma foldl_fmin_finite (l : List ℚ) (q : ℚ) :
    l.foldl (fun a b => F.fmin a (F.finite b)) (F.finite q) =
      F.finite (l.foldl Min.min q) := by
  induction l generalizing q with
  | nil => rfl
  | cons x xs ih => simpa [F.fmin] using ih (Min.min q x)

lemma foldl_fmax_finite (l : List ℚ) (q : ℚ) :
    l.foldl (fun a b => F.fmax a (F.finite b)) (F.finite q) =
      F.finite (l.foldl Max.max q) := by
  induction l generalizing q with
  | nil => rfl
  | cons x xs ih => simpa [F.fmax] using ih (Max.max q x)

lemma min_cons (x : ℚ) (xs : List ℚ) :
    SampleSet.min ⟨x :: xs⟩ = F.finite (xs.foldl Min.min x) := by
  have : F.fmin F.posInf (F.finite x) = F.finite x := rfl
  simp only [SampleSet.min, List.foldl_cons, this]
  exact foldl_fmin_finite xs x

lemma max_cons (x : ℚ) (xs : List ℚ) :
    SampleSet.max ⟨x :: xs⟩ = F.finite (xs.foldl Max.max x) := by
  have : F.fmax F.negInf (F.finite x) = F.finite x := rfl
  simp only [SampleSet.max, List.foldl_cons, this]
  exact foldl_fmax_finite xs x

lemma foldl_min_le (l : List ℚ) (q : ℚ) : l.foldl Min.min q ≤ q := by
  induction l generalizing q with
  | nil => simp
  | cons x xs ih => exact le_trans (ih (Min.min q x)) (min_le_left _ _)

lemma foldl_min_le_mem (l : List ℚ) (q : ℚ) : ∀ y ∈ l, l.foldl Min.min q ≤ y := by
  induction l generalizing q with
  | nil => simp
  | cons x xs ih =>
    intro y hy
    rcases List.mem_cons.mp hy with rfl | hy
    · exact le_trans (foldl_min_le xs (Min.min q y)) (min_le_right _ _)
    · exact ih (Min.min q x) y hy

lemma foldl_min_mem (l : List ℚ) (q : ℚ) :
    l.foldl Min.min q = q ∨ l.foldl Min.min q ∈ l := by
  induction l generalizing q with
  | nil => left; rfl
  | cons x xs ih =>
    rcases ih (Min.min q x) with h | h
    · rcases min_choice q x with hq | hx
      · left; simp only [List.foldl_cons]; rw [h, hq]
      · right; simp only [List.foldl_cons]; rw [h, hx]; exact List.mem_cons_self _ _
    · right; simp only [List.foldl_cons]; exact List.mem_cons_of_mem x h

lemma le_foldl_max (l : List ℚ) (q : ℚ) : q ≤ l.foldl Max.max q := by
  induction l generalizing q with
  | nil => simp
  | cons x xs ih => exact le_trans (le_max_left _ _) (ih (Max.max q x))

lemma mem_le_foldl_max (l : List ℚ) (q : ℚ) : ∀ y ∈ l, y ≤ l.foldl Max.max q := by
  induction l generalizing q with
  | nil => simp
  | cons x xs ih =>
    intro y hy
    rcases List.mem_cons.mp hy with rfl | hy
    · exact le_trans (le_max_right _ _) (le_foldl_max xs (Max.max q y))
    · exact ih (Max.max q x) y hy

lemma foldl_max_mem (l : List ℚ) (q : ℚ) :
    l.foldl Max.max q = q ∨ l.foldl Max.max q ∈ l := by
  induction l generalizing q with
  | nil => left; rfl
  | cons x xs ih =>
    rcases ih (Max.max q x) with h | h
    · rcases max_choice q x with hq | hx
      · left; simp only [List.foldl_cons]; rw [h, hq]
      · right; simp only [List.foldl_cons]; rw [h, hx]; exact List.mem_cons_self _ _
    · right; simp only [List.foldl_cons]; exact List.mem_cons_of_mem x h

/-- `min` of a non-empty set is an observation and a lower bound of all
observations. -/
lemma min_spec {s : SampleSet} (h : s.obs ≠ []) :
    ∃ m, s.min = F.finite m ∧ m ∈ s.obs ∧ ∀ y ∈ s.obs, m ≤ y := by
  obtain ⟨l⟩ := s
  obtain ⟨x, xs, rfl⟩ := List.exists_cons_of_ne_nil h
  refine ⟨xs.foldl Min.min x, min_cons x xs, ?_, ?_⟩
  · rcases foldl_min_mem xs x with h' | h'
    · rw [h']; exact List.mem_cons_self _ _
    · exact List.mem_cons_of_mem x h'
  · intro y hy
    rcases List.mem_cons.mp hy with rfl | hy
    · exact foldl_min_le xs y
    · exact foldl_min_le_mem xs x y hy

/-- `max` of a non-empty set is an observation and an upper bound of all
observations. -/
lemma max_spec {s : SampleSet} (h : s.obs ≠ []) :
    ∃ m, s.max = F.finite m ∧ m ∈ s.obs ∧ ∀ y ∈ s.obs, y ≤ m := by
  obtain ⟨l⟩ := s
  obtain ⟨x, xs, rfl⟩ := List.exists_cons_of_ne_nil h
  refine ⟨xs.foldl Max.max x, max_cons x xs, ?_, ?_⟩
  · rcases foldl_max_mem xs x with h' | h'
    · rw [h']; exact List.mem_cons_self _ _
    · exact List.mem_cons_of_mem x h'
  · intro y hy
    rcases List.mem_cons.mp hy with rfl | hy
    · exact le_foldl_max xs y
    · exact mem_le_foldl_max xs x y hy

lemma sortedObs_perm (s : SampleSet) : s.sortedObs.Perm s.obs :=
  List.perm_insertionSort _ _

lemma sortedObs_sorted (s : SampleSet) : List.Sorted (· ≤ ·) s.sortedObs :=
  List.sorted_insertionSort _ _

lemma sortedObs_length (s : SampleSet) : s.sortedObs.length = s.obs.length :=
  (sortedObs_perm s).length_eq

lemma sorted_head_le {l : List ℚ} (hs : List.Sorted (· ≤ ·) l) (hne : l ≠ []) :
    ∀ y ∈ l, l.head hne ≤ y := by
  obtain ⟨a, t, rfl⟩ := List.exists_cons_of_ne_nil hne
  intro y hy
  rcases List.mem_cons.mp hy with rfl | hy
  · exact le_refl _
  · exact (List.sorted_cons.mp hs).1 y hy

lemma sorted_le_getLast {l : List ℚ} (hs : List.Sorted (· ≤ ·) l) (hne : l ≠ []) :
    ∀ y ∈ l, y ≤ l.getLast hne := by
  induction l with
  | nil => simp at hne
  | cons a t ih =>
    intro y hy
    rcases eq_or_ne t [] with rfl | ht
    · simp only [List.mem_singleton] at hy
      subst hy; exact le_refl _
    · rw [List.getLast_cons ht]
      rcases List.mem_cons.mp hy with rfl | hy
      · exact (List.sorted_cons.mp hs).1 _ (List.getLast_mem ht)
      · exact ih (List.sorted_cons.mp hs).2 ht y hy

/-- `min` of a non-empty set is the head of the ascending-sorted copy. -/
lemma min_eq_sorted_head {s : SampleSet} (h : s.obs ≠ []) (h' : s.sortedObs ≠ []) :
    s.min = F.finite (s.sortedObs.head h') := by
  obtain ⟨m, hm, hmem, hlb⟩ := min_spec h
  rw [hm]
  congr 1
  have hhead_mem : s.sortedObs.head h' ∈ s.obs :=
    (sortedObs_perm s).subset (List.head_mem h')
  have h1 : m ≤ s.sortedObs.head h' := hlb _ hhead_mem
  have h2 : s.sortedObs.head h' ≤ m :=
    sorted_head_le (sortedObs_sorted s) h' m ((sortedObs_perm s).mem_iff.mpr hmem)
  exact le_antisymm h1 h2

/-- `max` of a non-empty set is the last element of the ascending-sorted copy. -/
lemma max_eq_sorted_getLast {s : SampleSet} (h : s.obs ≠ []) (h' : s.sortedObs ≠ []) :
    s.max = F.finite (s.sortedObs.getLast h') := by
  obtain ⟨m, hm, hmem, hub⟩ := max_spec h
  rw [hm]
  congr 1
  have hlast_mem : s.sortedObs.getLast h' ∈ s.obs :=
    (sortedObs_perm s).subset (List.getLast_mem h')
  have h1 : s.sortedObs.getLast h' ≤ m := hub _ hlast_mem
  have h2 : m ≤ s.sortedObs.getLast h' :=
    sorted_le_getLast (sortedObs_sorted s) h' m ((sortedObs_perm s).mem_iff.mpr hmem)
  exact le_antisymm h2 h1

lemma sortedObs_ne_nil {s : SampleSet} (h : s.obs ≠ []) : s.sortedObs ≠ [] := by
  rw [ne_eq, ← List.length_eq_zero, sortedObs_length, List.length_eq_zero]
  exact h

lemma head_congr {l l' : List ℚ} (e : l = l') (h : l ≠ []) :
    l.head h = l'.head (e ▸ h) := by
  subst e
  rfl

lemma getLast_congr {l l' : List ℚ} (e : l = l') (h : l ≠ []) :
    l.getLast h = l'.getLast (e ▸ h) := by
  subst e
  rfl

lemma get_zero_eq_head {l : List ℚ} (h : 0 < l.length) (hne : l ≠ []) :
    l.get ⟨0, h⟩ = l.head hne := by
  cases l with
  | nil => simp at hne
  | cons a t => rfl

lemma length_cast_ne_zero {s : SampleSet} (h : s.obs ≠ []) :
    ((s.obs.length : ℚ)) ≠ 0 := by
  have hp := List.length_pos.mpr h
  exact Nat.cast_ne_zero.mpr (by omega)

/-- For `0 ≤ p ≤ 100` on a non-empty set, the nearest-rank index is in
bounds. -/
lemma percentileIndex_lt {s : SampleSet} (h : s.obs ≠ []) {p : ℚ}
    (hp1 : p ≤ 100) :
    s.percentileIndex p < s.sortedObs.length := by
  have hN : 0 < s.obs.length := List.length_pos.mpr h
  rw [sortedObs_length]
  unfold percentileIndex
  have hval : ((s.obs.length - 1 : ℕ) : ℚ) * p / 100 ≤ ((s.obs.length - 1 : ℕ) : ℚ) := by
    rw [div_le_iff₀ (by norm_num : (0:ℚ) < 100)]
    exact mul_le_mul_of_nonneg_left hp1 (Nat.cast_nonneg _)
  have hfl : ⌊((s.obs.length - 1 : ℕ) : ℚ) * p / 100⌋ ≤ ((s.obs.length - 1 : ℕ) : ℤ) := by
    calc ⌊((s.obs.length - 1 : ℕ) : ℚ) * p / 100⌋
        ≤ ⌊((s.obs.length - 1 : ℕ) : ℚ)⌋ := Int.floor_le_floor hval
      _ = ((s.obs.length - 1 : ℕ) : ℤ) := Int.floor_natCast _
  have htn : (⌊((s.obs.length - 1 : ℕ) : ℚ) * p / 100⌋).toNat ≤ s.obs.length - 1 :=
    Int.toNat_le.mpr hfl
  omega

lemma percentile_eq_get {s : SampleSet} (p : ℚ)
    (h : s.percentileIndex p < s.sortedObs.length) :
    s.percentile p = F.finite (s.sortedObs.get ⟨s.percentileIndex p, h⟩) := by
  unfold percentile
  rw [List.get?_eq_get h]

lemma percentile_eq_nan {s : SampleSet} (p : ℚ)
    (h : s.sortedObs.length ≤ s.percentileIndex p) :
    s.percentile p = F.nan := by
  unfold percentile
  rw [List.get?_eq_none.mpr h]

lemma percentileIndex_zero (s : SampleSet) : s.percentileIndex 0 = 0 := by
  unfold percentileIndex
  rw [mul_zero, zero_div, Int.floor_zero]
  rfl

lemma percentileIndex_hundred (s : SampleSet) :
    s.percentileIndex 100 = s.obs.length - 1 := by
  unfold percentileIndex
  rw [mul_div_assoc, show (100 : ℚ) / 100 = 1 by norm_num, mul_one,
    Int.floor_natCast, Int.toNat_natCast]

/-- `percentile(0)` returns the minimum on a non-empty set. -/
lemma percentile_zero_eq_min {s : SampleSet} (h : s.obs ≠ []) :
    s.percentile 0 = s.min := by
  have h' := sortedObs_ne_nil h
  have hidx : s.percentileIndex 0 < s.sortedObs.length := by
    rw [percentileIndex_zero]
    exact List.length_pos.mpr h'
  rw [percentile_eq_get 0 hidx, min_eq_sorted_head h h']
  congr 1
  have h0 : 0 < s.sortedObs.length := List.length_pos.mpr h'
  have hfin : (⟨s.percentileIndex 0, hidx⟩ : Fin s.sortedObs.length) = ⟨0, h0⟩ :=
    Fin.ext (percentileIndex_zero s)
  rw [hfin, get_zero_eq_head h0 h']

/-- `percentile(100)` returns the maximum on a non-empty set. -/
lemma percentile_hundred_eq_max {s : SampleSet} (h : s.obs ≠ []) :
    s.percentile 100 = s.max := by
  have h' := sortedObs_ne_nil h
  have hN : 0 < s.obs.length := List.length_pos.mpr h
  have hidx : s.percentileIndex 100 < s.sortedObs.length := by
    rw [percentileIndex_hundred, sortedObs_length]
    omega
  rw [percentile_eq_get 100 hidx, max_eq_sorted_getLast h h']
  congr 1
  have h0 : 0 < s.sortedObs.length := List.length_pos.mpr h'
  have hlenidx : s.percentileIndex 100 = s.sortedObs.length - 1 := by
    rw [percentileIndex_hundred, sortedObs_length]
  have hfin : (⟨s.percentileIndex 100, hidx⟩ : Fin s.sortedObs.length) =
      ⟨s.sortedObs.length - 1, by omega⟩ := Fin.ext hlenidx
  rw [hfin, List.get_eq_getElem]
  exact (List.getLast_eq_getElem s.sortedObs h').symm

lemma avg_nonempty {s : SampleSet} (h : s.obs ≠ []) :
    s.avg = F.finite (s.obs.sum / (s.obs.length : ℚ)) := by
  simp [avg, F.div, length_cast_ne_zero h]

lemma foldl_add_finite (l : List ℚ) (q : ℚ) :
    (l.map F.finite).foldl F.add (F.finite q) = F.finite (q + l.sum) := by
  induction l generalizing q with
  | nil => simp
  | cons x xs ih =>
    simp only [List.map_cons, List.foldl_cons, List.sum_cons]
    have : F.add (F.finite q) (F.finite x) = F.finite (q + x) := rfl
    rw [this, ih (q + x), add_assoc]

lemma FlistSum_map_finite (f : ℚ → ℚ) (l : List ℚ) :
    FlistSum (l.map fun x => F.finite (f x)) = F.finite ((l.map f).sum) := by
  unfold FlistSum
  have : (l.map fun x => F.finite (f x)) = (l.map f).map F.finite := by
    rw [List.map_map]
    rfl
  rw [this, foldl_add_finite]
  rw [zero_add]

lemma stdevArg_nonempty {s : SampleSet} (h : s.obs ≠ []) :
    s.stdevArg = F.finite
      ((s.obs.map fun x => (x - s.obs.sum / (s.obs.length : ℚ)) ^ 2).sum /
        (s.obs.length : ℚ)) := by
  have hlen : ((s.obs.length : ℚ)) ≠ 0 := length_cast_ne_zero h
  unfold stdevArg
  rw [avg_nonempty h]
  have hmap : (s.obs.map fun x =>
        F.sq (F.sub (F.finite x) (F.finite (s.obs.sum / (s.obs.length : ℚ))))) =
      s.obs.map fun x =>
        F.finite ((x - s.obs.sum / (s.obs.length : ℚ)) ^ 2) := by
    simp [F.sub, F.sq]
  rw [hmap, FlistSum_map_finite]
  simp [F.div, hlen]

/-- The quantity inside the square root of `stdev` is nonnegative on a
non-empty set. -/
lemma stdevArg_val_nonneg (s : SampleSet) :
    0 ≤ (s.obs.map fun x => (x - s.obs.sum / (s.obs.length : ℚ)) ^ 2).sum /
      (s.obs.length : ℚ) := by
  apply div_nonneg
  · apply List.sum_nonneg
    intro x hx
    obtain ⟨y, _, rfl⟩ := List.mem_map.mp hx
    positivity
  · exact Nat.cast_nonneg _

lemma stdev_nonempty {s : SampleSet} (h : s.obs ≠ []) :
    s.stdev = FR.finite (Real.sqrt
      (((s.obs.map fun x => (x - s.obs.sum / (s.obs.length : ℚ)) ^ 2).sum /
        (s.obs.length : ℚ) : ℚ))) := by
  unfold stdev
  rw [stdevArg_nonempty h]
  simp only [Fsqrt]
  rw [if_neg (not_lt.mpr (stdevArg_val_nonneg s))]

/-- All derived statistics are invariant under permutation of the
observations: `SampleSet` statistics only depend on the multiset of
observations. -/
lemma stats_of_perm {s t : SampleSet} (h : s.obs.Perm t.obs) :
    s.num_samples = t.num_samples ∧ s.min = t.min ∧ s.max = t.max ∧
      s.avg = t.avg ∧ s.stdevArg = t.stdevArg ∧ s.stdev = t.stdev ∧
      ∀ p, s.percentile p = t.percentile p := by
  have hlen := h.length_eq
  have hsum := h.sum_eq
  have hsorted : s.sortedObs = t.sortedObs :=
    List.eq_of_perm_of_sorted
      ((sortedObs_perm s).trans (h.trans (sortedObs_perm t).symm))
      (sortedObs_sorted s) (sortedObs_sorted t)
  have havg : s.avg = t.avg := by
    unfold avg
    rw [hsum, hlen]
  have harg : s.stdevArg = t.stdevArg := by
    rcases eq_or_ne s.obs [] with he | hne
    · have hte : t.obs = [] := by
        rw [← List.length_eq_zero, ← hlen, he]
        rfl
      unfold stdevArg
      rw [havg, he, hte]
    · have hnt : t.obs ≠ [] := by
        rw [ne_eq, ← List.length_eq_zero, ← hlen, List.length_eq_zero]
        exact hne
      rw [stdevArg_nonempty hne, stdevArg_nonempty hnt, hsum, hlen]
      congr 2
      exact (h.map _).sum_eq
  refine ⟨hlen, ?_, ?_, havg, harg, ?_, ?_⟩
  · rcases eq_or_ne s.obs [] with he | hne
    · have hte : t.obs = [] := by
        rw [← List.length_eq_zero, ← hlen, he]
        rfl
      unfold min
      rw [he, hte]
    · have hnt : t.obs ≠ [] := by
        rw [ne_eq, ← List.length_eq_zero, ← hlen, List.length_eq_zero]
        exact hne
      rw [min_eq_sorted_head hne (sortedObs_ne_nil hne),
        min_eq_sorted_head hnt (sortedObs_ne_nil hnt)]
      congr 1
      exact head_congr hsorted _
  · rcases eq_or_ne s.obs [] with he | hne
    · have hte : t.obs = [] := by
        rw [← List.length_eq_zero, ← hlen, he]
        rfl
      unfold max
      rw [he, hte]
    · have hnt : t.obs ≠ [] := by
        rw [ne_eq, ← List.length_eq_zero, ← hlen, List.length_eq_zero]
        exact hne
      rw [max_eq_sorted_getLast hne (sortedObs_ne_nil hne),
        max_eq_sorted_getLast hnt (sortedObs_ne_nil hnt)]
      congr 1
      exact getLast_congr hsorted _
  · unfold stdev
    rw [harg]
  · intro p
    unfold percentile percentileIndex
    rw [hsorted, hlen]

/-- Every percentile of a single-element set returns the single value
(the index is `⌊0 · p/100⌋ = 0` whatever `p` is). -/
lemma percentile_singleton (v p : ℚ) :
    SampleSet.percentile ⟨[v]⟩ p = F.finite v := by
  have hidx : SampleSet.percentileIndex ⟨[v]⟩ p = 0 := by
    simp [percentileIndex]
  unfold percentile
  rw [hidx]
  rfl

end SampleSet

/-! ### Claims about `SampleSet` (src/sample.rs) -/

/-- C1: for every non-empty Sample Set with `N` observations and every
`p ∈ [0,100]`, `percentile(p)` returns the element at index
`⌊(N−1)·p/100⌋` of an ascending-sorted copy of the observations
(nearest-rank); consequently `percentile(0) = min()`, `percentile(100) =
max()`, for `N = 1` every percentile returns the single value, and for
`[10,20,30,40,50]` `percentile(50) = 30`. -/
theorem C1_percentile_nearest_rank :
    (∀ (s : SampleSet) (p : ℚ), s.obs ≠ [] → 0 ≤ p → p ≤ 100 →
      ∃ h : s.percentileIndex p < s.sortedObs.length,
        s.percentileIndex p =
          (⌊((s.num_samples - 1 : ℕ) : ℚ) * p / 100⌋).toNat ∧
        s.percentile p = F.finite (s.sortedObs.get ⟨s.percentileIndex p, h⟩)) ∧
    (∀ s : SampleSet, s.obs ≠ [] →
      s.percentile 0 = s.min ∧ s.percentile 100 = s.max) ∧
    (∀ v p : ℚ, SampleSet.percentile ⟨[v]⟩ p = F.finite v) ∧
    SampleSet.percentile ⟨[10, 20, 30, 40, 50]⟩ 50 = F.finite 30 := by
  refine ⟨?_, ?_, ?_, ?_⟩
  · intro s p h hp0 hp1
    exact ⟨SampleSet.percentileIndex_lt h hp1, rfl,
      SampleSet.percentile_eq_get p _⟩
  · intro s h
    exact ⟨SampleSet.percentile_zero_eq_min h,
      SampleSet.percentile_hundred_eq_max h⟩
  · exact SampleSet.percentile_singleton
  · norm_num [SampleSet.percentile, SampleSet.sortedObs, SampleSet.percentileIndex,
      List.insertionSort, List.orderedInsert]
    rfl

/-- Witness for C1 at concrete inputs: on `[3,1,2]`, `percentile(0)` equals
`min` and `percentile(100)` equals `max`. -/
theorem C1_witness :
    SampleSet.percentile ⟨[3, 1, 2]⟩ 0 = SampleSet.min ⟨[3, 1, 2]⟩ ∧
      SampleSet.percentile ⟨[3, 1, 2]⟩ 100 = SampleSet.max ⟨[3, 1, 2]⟩ :=
  C1_percentile_nearest_rank.2.1 ⟨[3, 1, 2]⟩ (by simp)

/-- C2: `merge` concatenates, so the result holds exactly the multiset union
of the two inputs and `num_samples` adds; merging is associative and
commutative up to multiset equality, and all derived statistics (min, max,
avg, stdev, percentiles) agree across the three bracketings/orders. -/
theorem C2_merge_multiset_union_assoc_comm :
    ∀ A B C : SampleSet,
      ((A.merge B).obs : Multiset ℚ) = (A.obs : Multiset ℚ) + (B.obs : Multiset ℚ) ∧
      (A.merge B).num_samples = A.num_samples + B.num_samples ∧
      (((A.merge B).merge C).obs : Multiset ℚ) =
        ((A.merge (B.merge C)).obs : Multiset ℚ) ∧
      (((A.merge B).merge C).obs : Multiset ℚ) =
        (((B.merge A).merge C).obs : Multiset ℚ) ∧
      (((A.merge B).merge C).min = (A.merge (B.merge C)).min ∧
        ((A.merge B).merge C).max = (A.merge (B.merge C)).max ∧
        ((A.merge B).merge C).avg = (A.merge (B.merge C)).avg ∧
        ((A.merge B).merge C).stdev = (A.merge (B.merge C)).stdev ∧
        ∀ p, ((A.merge B).merge C).percentile p =
          (A.merge (B.merge C)).percentile p) ∧
      (((A.merge B).merge C).min = ((B.merge A).merge C).min ∧
        ((A.merge B).merge C).max = ((B.merge A).merge C).max ∧
        ((A.merge B).merge C).avg = ((B.merge A).merge C).avg ∧
        ((A.merge B).merge C).stdev = ((B.merge A).merge C).stdev ∧
        ∀ p, ((A.merge B).merge C).percentile p =
          ((B.merge A).merge C).percentile p) := by
  intro A B C
  have hassoc : ((A.merge B).merge C).obs = (A.merge (B.merge C)).obs :=
    List.append_assoc A.obs B.obs C.obs
  have hperm1 : ((A.merge B).merge C).obs.Perm (A.merge (B.merge C)).obs := by
    rw [hassoc]
  have hperm2 : ((A.merge B).merge C).obs.Perm ((B.merge A).merge C).obs :=
    (List.perm_append_comm).append_right C.obs
  obtain ⟨_, hmin1, hmax1, havg1, _, hstdev1, hperc1⟩ :=
    SampleSet.stats_of_perm hperm1
  obtain ⟨_, hmin2, hmax2, havg2, _, hstdev2, hperc2⟩ :=
    SampleSet.stats_of_perm hperm2
  refine ⟨?_, ?_, ?_, ?_, ⟨hmin1, hmax1, havg1, hstdev1, hperc1⟩,
    ⟨hmin2, hmax2, havg2, hstdev2, hperc2⟩⟩
  · simp [SampleSet.merge]
  · simp [SampleSet.merge, SampleSet.num_samples]
  · exact Multiset.coe_eq_coe.mpr hperm1
  · exact Multiset.coe_eq_coe.mpr hperm2

/-- C3: on a non-empty set, `avg` is the arithmetic mean and `stdev` is the
population standard deviation (square root of the mean of squared deviations,
divided by `N`, not `N−1`); for `[1,2,3,4]`, min = 1, max = 4, avg = 5/2,
stdev = √(5/4). -/
theorem C3_avg_mean_stdev_population :
    (∀ s : SampleSet, s.obs ≠ [] →
      s.avg = F.finite (s.obs.sum / (s.num_samples : ℚ)) ∧
      s.stdev = FR.finite (Real.sqrt
        (((s.obs.map fun x => (x - s.obs.sum / (s.num_samples : ℚ)) ^ 2).sum /
          (s.num_samples : ℚ) : ℚ)))) ∧
    (SampleSet.min ⟨[1, 2, 3, 4]⟩ = F.finite 1 ∧
      SampleSet.max ⟨[1, 2, 3, 4]⟩ = F.finite 4 ∧
      SampleSet.avg ⟨[1, 2, 3, 4]⟩ = F.finite (5/2) ∧
      SampleSet.stdev ⟨[1, 2, 3, 4]⟩ = FR.finite (Real.sqrt (5/4))) := by
  constructor
  · intro s h
    exact ⟨SampleSet.avg_nonempty h, SampleSet.stdev_nonempty h⟩
  · refine ⟨?_, ?_, ?_, ?_⟩
    · norm_num [SampleSet.min, F.fmin]
    · norm_num [SampleSet.max, F.fmax]
    · norm_num [SampleSet.avg, F.div]
    · rw [SampleSet.stdev_nonempty (by simp)]
      congr 1
      have : ((([1, 2, 3, 4] : List ℚ).map
            fun x => (x - ([1, 2, 3, 4] : List ℚ).sum /
              (([1, 2, 3, 4] : List ℚ).length : ℚ)) ^ 2).sum /
            ((([1, 2, 3, 4] : List ℚ).length : ℚ)) : ℚ) = 5/4 := by
        norm_num
      rw [this]
      norm_num

/-- Witness for C3 at a concrete non-empty set. -/
theorem C3_witness :
    SampleSet.avg ⟨[1, 2, 3, 4]⟩ =
      F.finite (([1, 2, 3, 4] : List ℚ).sum / ((4 : ℕ) : ℚ)) :=
  (C3_avg_mean_stdev_population.1 ⟨[1, 2, 3, 4]⟩ (by simp)).1

/-- C9: on an empty Sample Set, `min()` is `+∞` (the fold's base value),
`max()` is `−∞`, and `avg()`/`stdev()` are NaN from the `0/0` division; none
of them is an ordinary finite number. -/
theorem C9_empty_set_sentinels :
    ∀ s : SampleSet, s.num_samples = 0 →
      s.min = F.posInf ∧ s.max = F.negInf ∧ s.avg = F.nan ∧ s.stdev = FR.nan := by
  intro s h
  obtain ⟨l⟩ := s
  have hl : l = [] := List.length_eq_zero.mp h
  subst hl
  refine ⟨rfl, rfl, ?_, ?_⟩
  · norm_num [SampleSet.avg, F.div]
  · have harg : SampleSet.stdevArg ⟨([] : List ℚ)⟩ = F.nan := by
      norm_num [SampleSet.stdevArg, SampleSet.avg, F.div, F.sub, F.sq,
        FlistSum, F.add]
    unfold SampleSet.stdev
    rw [harg]
    rfl

/-- Witness for C9: the concrete empty set. -/
theorem C9_witness :
    SampleSet.min ⟨[]⟩ = F.posInf ∧ SampleSet.max ⟨[]⟩ = F.negInf ∧
      SampleSet.avg ⟨[]⟩ = F.nan ∧ SampleSet.stdev ⟨[]⟩ = FR.nan :=
  C9_empty_set_sentinels ⟨[]⟩ rfl

/-- C10: on a non-empty set of (finite, hence totally ordered) observations
and `p ≥ 0`, `percentile` is total: the element lookup is checked, an
out-of-bounds index yields NaN instead of failing, and for `p ∈ [0,100]` the
result is one of the stored observations. -/
theorem C10_percentile_total_checked :
    ∀ (s : SampleSet) (p : ℚ), s.obs ≠ [] → 0 ≤ p →
      (s.sortedObs.length ≤ s.percentileIndex p → s.percentile p = F.nan) ∧
      (p ≤ 100 → ∃ v ∈ s.obs, s.percentile p = F.finite v) := by
  intro s p h hp0
  refine ⟨fun hge => SampleSet.percentile_eq_nan p hge, fun hp1 => ?_⟩
  have hidx := SampleSet.percentileIndex_lt h hp1
  refine ⟨s.sortedObs.get ⟨s.percentileIndex p, hidx⟩, ?_,
    SampleSet.percentile_eq_get p hidx⟩
  exact (SampleSet.sortedObs_perm s).subset (List.get_mem _ _ _)

/-- Witness for C10: on `[1,2]` with `p = 50` the percentile is a stored
observation. -/
theorem C10_witness :
    ∃ v ∈ ([1, 2] : List ℚ), SampleSet.percentile ⟨[1, 2]⟩ 50 = F.finite v :=
  (C10_percentile_total_checked ⟨[1, 2]⟩ 50 (by simp) (by norm_num)).2
    (by norm_num)

/-! ### Helper lemmas about the worker loop and the orchestrator -/

lemma SampleSet.num_samples_add (s : SampleSet) (q : ℚ) :
    (s.add q).num_samples = s.num_samples + 1 := by
  simp [SampleSet.add, SampleSet.num_samples]

/-- A worker loop never shrinks its latency Sample Set: whatever it returns
on success extends the accumulator it started from. -/
lemma workerLoop_ok_latency_le :
    ∀ (iters : List (Except JobError (ℕ × ℚ))) (rt t : ℚ) (c : ℕ)
      (bw lat io b' l' i' : SampleSet),
      workerLoop rt t c bw lat io iters = .ok b' l' i' →
      lat.num_samples ≤ l'.num_samples := by
  intro iters
  induction iters with
  | nil =>
    intro rt t c bw lat io b' l' i' h
    unfold workerLoop at h
    split at h
    · injection h with h1 h2 h3
      subst h2
      exact le_refl _
    · exact absurd h (by simp)
  | cons iter rest ih =>
    intro rt t c bw lat io b' l' i' h
    unfold workerLoop at h
    split at h
    · injection h with h1 h2 h3
      subst h2
      exact le_refl _
    · match iter, h with
      | .error e, h => exact absurd h (by simp)
      | .ok (bytes, lat'), h =>
        have := ih rt (t + lat') (c + 1) (bw.add ((bytes : ℚ) / lat'))
          (lat.add ((⌊1000000 * lat'⌋ : ℤ) : ℚ))
          (io.add (((c : ℚ) + 1) / (t + lat'))) b' l' i' h
        rw [SampleSet.num_samples_add] at this
        omega

/-- Joining a list of all-`ok` worker results merges them pairwise, in
order, into the accumulators, and emits one `joinWorker` event per worker. -/
lemma joinWorkers_all_ok (bw lat io : ℕ → SampleSet) :
    ∀ (idxs : List ℕ) (i : ℕ) (b l o : SampleSet),
      Job.joinWorkers i b l o
          (idxs.map fun j => LoopResult.ok (bw j) (lat j) (io j)) =
        (.ok (idxs.foldl (fun acc j => acc.merge (bw j)) b)
            (idxs.foldl (fun acc j => acc.merge (lat j)) l)
            (idxs.foldl (fun acc j => acc.merge (io j)) o),
          (List.range idxs.length).map fun k => Event.joinWorker (i + k)) := by
  intro idxs
  induction idxs with
  | nil => intro i b l o; rfl
  | cons j rest ih =>
    intro i b l o
    simp only [List.map_cons, Job.joinWorkers, List.foldl_cons]
    rw [ih (i + 1) (b.merge (bw j)) (l.merge (lat j)) (o.merge (io j))]
    simp only [List.length_cons, List.range_succ_eq_map, List.map_cons,
      List.map_map]
    refine congrArg₂ Prod.mk rfl ?_
    congr 1
    refine List.map_congr_left ?_
    intro a _
    simp only [Function.comp_apply]
    exact congrArg Event.joinWorker (by omega)

/-- Classification of the join loop's outcome: either every worker result in
the list is `ok` and the join returns `ok`, or it returns the error of some
erroring worker in the list, or it returns `fuel` because some result is
`fuel`. -/
lemma joinWorkers_cases :
    ∀ (rs : List LoopResult) (i : ℕ) (b l o : SampleSet),
      ((∃ b' l' o', (Job.joinWorkers i b l o rs).1 = .ok b' l' o') ∧
        ∀ r ∈ rs, ∃ b₀ l₀ o₀, r = .ok b₀ l₀ o₀) ∨
      (∃ e, (Job.joinWorkers i b l o rs).1 = .err e ∧ LoopResult.err e ∈ rs) ∨
      ((Job.joinWorkers i b l o rs).1 = .fuel ∧ LoopResult.fuel ∈ rs) := by
  intro rs
  induction rs with
  | nil =>
    intro i b l o
    left
    exact ⟨⟨b, l, o, rfl⟩, by simp⟩
  | cons r rest ih =>
    intro i b l o
    match r with
    | .ok bw lat io =>
      rcases ih (i + 1) (b.merge bw) (l.merge lat) (o.merge io) with
        ⟨⟨b', l', o', hok⟩, hall⟩ | ⟨e, herr, hmem⟩ | ⟨hfuel, hmem⟩
      · left
        refine ⟨⟨b', l', o', ?_⟩, ?_⟩
        · simpa [Job.joinWorkers] using hok
        · intro x hx
          rcases List.mem_cons.mp hx with rfl | hx
          · exact ⟨bw, lat, io, rfl⟩
          · exact hall x hx
      · right; left
        exact ⟨e, by simpa [Job.joinWorkers] using herr,
          List.mem_cons_of_mem _ hmem⟩
      · right; right
        exact ⟨by simpa [Job.joinWorkers] using hfuel,
          List.mem_cons_of_mem _ hmem⟩
    | .err e =>
      right; left
      exact ⟨e, rfl, List.mem_cons_self _ _⟩
    | .fuel =>
      right; right
      exact ⟨rfl, List.mem_cons_self _ _⟩

/-- Every event the join loop emits is a `joinWorker` event. -/
lemma joinWorkers_events :
    ∀ (rs : List LoopResult) (i : ℕ) (b l o : SampleSet) (ev : Event),
      ev ∈ (Job.joinWorkers i b l o rs).2 → ∃ k, ev = Event.joinWorker k := by
  intro rs
  induction rs with
  | nil => intro i b l o ev h; exact absurd h (by simp [Job.joinWorkers])
  | cons r rest ih =>
    intro i b l o ev h
    match r with
    | .ok bw lat io =>
      simp only [Job.joinWorkers, List.mem_cons] at h
      rcases h with rfl | h
      · exact ⟨i, rfl⟩
      · exact ih (i + 1) _ _ _ ev h
    | .err e =>
      simp only [Job.joinWorkers, List.mem_singleton] at h
      exact ⟨i, h⟩
    | .fuel =>
      simp only [Job.joinWorkers, List.mem_singleton] at h
      exact ⟨i, h⟩

/-- When every construction step succeeds, `Job::run` is the join of the
`num_jobs.unwrap_or(1)` worker loops, and its trace is: record the start,
build the operator, build the runtime, the `prepare_task` events, one spawn
per worker, then the join events. -/
lemma Job.run_success_unfold (cfg : JobConfig) (o : JobOracle)
    (hop : o.operatorBuild = .ok ()) (hrt : o.runtimeBuild = .ok ())
    (hpo : o.prepOperatorBuild = .ok ()) (hsw : o.stagingWrite = .ok ()) :
    Job.run cfg o =
      ((Job.joinWorkers 0 ⟨[]⟩ ⟨[]⟩ ⟨[]⟩ ((List.range (cfg.num_jobs.getD 1)).map
          fun i => workerLoop cfg.run_time o.prepElapsed 0 ⟨[]⟩ ⟨[]⟩ ⟨[]⟩
            (o.workers i))).1,
        [Event.recordStart, Event.buildOperator, Event.buildRuntime] ++
          (Job.prepare_task cfg o).2 ++
          (List.range (cfg.num_jobs.getD 1)).map Event.spawnWorker ++
          (Job.joinWorkers 0 ⟨[]⟩ ⟨[]⟩ ⟨[]⟩ ((List.range (cfg.num_jobs.getD 1)).map
            fun i => workerLoop cfg.run_time o.prepElapsed 0 ⟨[]⟩ ⟨[]⟩ ⟨[]⟩
              (o.workers i))).2) := by
  cases hw : cfg.workload with
  | download => simp [Job.run, Job.prepare_task, hop, hrt, hpo, hsw, hw]
  | upload => simp [Job.run, Job.prepare_task, hop, hrt, hpo, hsw, hw]

/-! ### Claims about the worker loop and orchestrator (src/job.rs) -/

/-- C4 counterexample: the claim says the worker exits when the elapsed time
is ≥ the run duration, but the code's test is `start.elapsed() > run_time`
(strict). At an iteration boundary with elapsed = run_time = 1s the loop
does not exit with its current (empty) sets: it performs one more operation
(4096 bytes, 1s latency) and only then exits, returning sets extended by
that extra iteration. -/
theorem C4_counterexample :
    workerLoop 1 1 0 ⟨[]⟩ ⟨[]⟩ ⟨[]⟩ [Except.ok (4096, 1)] =
      .ok ⟨[4096]⟩ ⟨[1000000]⟩ ⟨[1/2]⟩ ∧
    workerLoop 1 1 0 ⟨[]⟩ ⟨[]⟩ ⟨[]⟩ [Except.ok (4096, 1)] ≠
      .ok ⟨[]⟩ ⟨[]⟩ ⟨[]⟩ := by
  have h1 : workerLoop 1 1 0 ⟨[]⟩ ⟨[]⟩ ⟨[]⟩ [Except.ok (4096, 1)] =
      .ok ⟨[4096]⟩ ⟨[1000000]⟩ ⟨[1/2]⟩ := by
    norm_num [workerLoop, SampleSet.add]
  refine ⟨h1, ?_⟩
  rw [h1]
  simp

/-- C4 (amended): in every worker loop the exit test happens only at
iteration boundaries, and at a boundary the worker exits returning its
current Sample Sets iff the elapsed time since the shared start is strictly
greater than the run duration (`start.elapsed() > run_time`); otherwise it
performs exactly one more task operation: a failing operation aborts the
loop with that error, and a successful one continues the loop with each
Sample Set extended by that iteration's sample (so the loop cannot have
returned the pre-boundary sets). -/
theorem C4_amended_exit_strictly_greater :
    ∀ (rt t : ℚ) (c : ℕ) (bw lat io : SampleSet)
      (iters : List (Except JobError (ℕ × ℚ))),
      (rt < t → workerLoop rt t c bw lat io iters = .ok bw lat io) ∧
      (¬ rt < t → ∀ e rest, iters = .error e :: rest →
        workerLoop rt t c bw lat io iters = .err e) ∧
      (¬ rt < t → ∀ bytes l rest, iters = .ok (bytes, l) :: rest →
        workerLoop rt t c bw lat io iters =
          workerLoop rt (t + l) (c + 1) (bw.add ((bytes : ℚ) / l))
            (lat.add ((⌊1000000 * l⌋ : ℤ) : ℚ))
            (io.add (((c : ℚ) + 1) / (t + l))) rest ∧
        ∀ b' l' i', workerLoop rt t c bw lat io iters = .ok b' l' i' →
          lat.num_samples < l'.num_samples) := by
  intro rt t c bw lat io iters
  refine ⟨?_, ?_, ?_⟩
  · intro h
    cases iters with
    | nil => simp [workerLoop, h]
    | cons a rest => simp [workerLoop, h]
  · intro hn e rest hiters
    subst hiters
    simp [workerLoop, hn]
  · intro hn bytes l rest hiters
    subst hiters
    have hstep : workerLoop rt t c bw lat io (.ok (bytes, l) :: rest) =
        workerLoop rt (t + l) (c + 1) (bw.add ((bytes : ℚ) / l))
          (lat.add ((⌊1000000 * l⌋ : ℤ) : ℚ))
          (io.add (((c : ℚ) + 1) / (t + l))) rest := by
      simp [workerLoop, hn]
    refine ⟨hstep, ?_⟩
    intro b' l' i' h
    rw [hstep] at h
    have := workerLoop_ok_latency_le rest rt (t + l) (c + 1)
      (bw.add ((bytes : ℚ) / l)) (lat.add ((⌊1000000 * l⌋ : ℤ) : ℚ))
      (io.add (((c : ℚ) + 1) / (t + l))) b' l' i' h
    rw [SampleSet.num_samples_add] at this
    omega

/-- Witness for the amended C4: once the deadline is strictly exceeded
(elapsed 2s > run duration 1s), the loop returns its current sets. -/
theorem C4_witness :
    workerLoop 1 2 0 ⟨[]⟩ ⟨[]⟩ ⟨[]⟩ [] = .ok ⟨[]⟩ ⟨[]⟩ ⟨[]⟩ :=
  (C4_amended_exit_strictly_greater 1 2 0 ⟨[]⟩ ⟨[]⟩ ⟨[]⟩ []).1 (by norm_num)

/-- C5 counterexample: in the code, `let start = Instant::now()` runs before
`build_operator` and before `prepare_task` (src/job.rs:28,30,38), so on a
concrete Download run the trace records the start instant first, strictly
before the staging write — the claim's order ("record the start … only after
Task construction and any staging write") is false. -/
theorem C5_counterexample :
    (Job.run ⟨some 1, 1, .download, 4096⟩
        ⟨"k", .ok (), .ok (), .ok (), .ok (), 0, fun _ => [.ok (4096, 2)]⟩).2 =
      [Event.recordStart, Event.buildOperator, Event.buildRuntime,
        Event.prepBuildOperator, Event.stagingWrite,
        Event.spawnWorker 0, Event.joinWorker 0] ∧
    (Job.run ⟨some 1, 1, .download, 4096⟩
        ⟨"k", .ok (), .ok (), .ok (), .ok (), 0, fun _ => [.ok (4096, 2)]⟩).2.indexOf
        Event.recordStart <
      (Job.run ⟨some 1, 1, .download, 4096⟩
        ⟨"k", .ok (), .ok (), .ok (), .ok (), 0, fun _ => [.ok (4096, 2)]⟩).2.indexOf
        Event.stagingWrite := by
  have htr : (Job.run ⟨some 1, 1, .download, 4096⟩
      ⟨"k", .ok (), .ok (), .ok (), .ok (), 0, fun _ => [.ok (4096, 2)]⟩).2 =
      [Event.recordStart, Event.buildOperator, Event.buildRuntime,
        Event.prepBuildOperator, Event.stagingWrite,
        Event.spawnWorker 0, Event.joinWorker 0] := by
    norm_num [Job.run, Job.prepare_task, Job.joinWorkers, workerLoop,
      SampleSet.add, SampleSet.merge, List.range_succ]
  refine ⟨htr, ?_⟩
  rw [htr]
  decide

/-- C5 (amended): `Job::run` performs its steps in this order: it records
the single shared start instant first — before the storage capability and
the Task are built, so construction and staging time already counts against
the deadline — then builds the storage capability once, then builds the Task
once, then starts exactly `W = num_jobs.unwrap_or(1)` worker loops, each
sharing the task and the start instant, waits for all `W`, and merges the
`W` Sample Set triples pairwise in join order into one triple. -/
theorem C5_amended_start_recorded_before_construction :
    ∀ (cfg : JobConfig) (o : JobOracle) (bw lat io : ℕ → SampleSet),
      o.operatorBuild = .ok () → o.runtimeBuild = .ok () →
      o.prepOperatorBuild = .ok () → o.stagingWrite = .ok () →
      (∀ i, workerLoop cfg.run_time o.prepElapsed 0 ⟨[]⟩ ⟨[]⟩ ⟨[]⟩
        (o.workers i) = .ok (bw i) (lat i) (io i)) →
      Job.run cfg o =
        (.ok ((List.range (cfg.num_jobs.getD 1)).foldl
              (fun acc j => acc.merge (bw j)) ⟨[]⟩)
            ((List.range (cfg.num_jobs.getD 1)).foldl
              (fun acc j => acc.merge (lat j)) ⟨[]⟩)
            ((List.range (cfg.num_jobs.getD 1)).foldl
              (fun acc j => acc.merge (io j)) ⟨[]⟩),
          [Event.recordStart, Event.buildOperator, Event.buildRuntime] ++
            (Job.prepare_task cfg o).2 ++
            (List.range (cfg.num_jobs.getD 1)).map Event.spawnWorker ++
            (List.range (cfg.num_jobs.getD 1)).map Event.joinWorker) := by
  intro cfg o bw lat io hop hrt hpo hsw hworkers
  rw [Job.run_success_unfold cfg o hop hrt hpo hsw]
  have hmap : (List.range (cfg.num_jobs.getD 1)).map
      (fun i => workerLoop cfg.run_time o.prepElapsed 0 ⟨[]⟩ ⟨[]⟩ ⟨[]⟩
        (o.workers i)) =
      (List.range (cfg.num_jobs.getD 1)).map
        (fun j => LoopResult.ok (bw j) (lat j) (io j)) := by
    apply List.map_congr_left
    intro i _
    exact hworkers i
  rw [hmap, joinWorkers_all_ok bw lat io (List.range (cfg.num_jobs.getD 1)) 0]
  simp

/-- Witness for the amended C5: one Upload worker, one iteration. -/
theorem C5_witness :
    Job.run ⟨some 1, 1, .upload, 4096⟩
        ⟨"k", .ok (), .ok (), .ok (), .ok (), 0, fun _ => [.ok (4096, 2)]⟩ =
      (.ok ((List.range 1).foldl (fun acc _ => acc.merge ⟨[2048]⟩) ⟨[]⟩)
          ((List.range 1).foldl (fun acc _ => acc.merge ⟨[2000000]⟩) ⟨[]⟩)
          ((List.range 1).foldl (fun acc _ => acc.merge ⟨[1/2]⟩) ⟨[]⟩),
        [Event.recordStart, Event.buildOperator, Event.buildRuntime] ++
          (Job.prepare_task ⟨some 1, 1, .upload, 4096⟩
            ⟨"k", .ok (), .ok (), .ok (), .ok (), 0,
              fun _ => [.ok (4096, 2)]⟩).2 ++
          (List.range 1).map Event.spawnWorker ++
          (List.range 1).map Event.joinWorker) :=
  C5_amended_start_recorded_before_construction
    ⟨some 1, 1, .upload, 4096⟩
    ⟨"k", .ok (), .ok (), .ok (), .ok (), 0, fun _ => [.ok (4096, 2)]⟩
    (fun _ => ⟨[2048]⟩) (fun _ => ⟨[2000000]⟩) (fun _ => ⟨[1/2]⟩)
    rfl rfl rfl rfl
    (fun _ => by norm_num [workerLoop, SampleSet.add])

/-- C6: given that construction succeeds (and the model-artifact `fuel`
outcome does not arise), `Job::run` returns `ok` with the merged triple iff
every one of the `W = num_jobs.unwrap_or(1)` workers completed its loop
without error; and if any worker's loop aborts with an error, the run
returns a worker's error (the statistics of workers that did complete are
not reported as success). -/
theorem C6_whole_run_fails_on_any_worker_error :
    ∀ (cfg : JobConfig) (o : JobOracle),
      o.operatorBuild = .ok () → o.runtimeBuild = .ok () →
      o.prepOperatorBuild = .ok () → o.stagingWrite = .ok () →
      (∀ i, i < cfg.num_jobs.getD 1 →
        workerLoop cfg.run_time o.prepElapsed 0 ⟨[]⟩ ⟨[]⟩ ⟨[]⟩ (o.workers i) ≠
          .fuel) →
      ((∃ b l io, (Job.run cfg o).1 = .ok b l io) ↔
        ∀ i, i < cfg.num_jobs.getD 1 →
          ∃ b l io, workerLoop cfg.run_time o.prepElapsed 0 ⟨[]⟩ ⟨[]⟩ ⟨[]⟩
            (o.workers i) = .ok b l io) ∧
      ((∃ i, i < cfg.num_jobs.getD 1 ∧ ∃ e,
          workerLoop cfg.run_time o.prepElapsed 0 ⟨[]⟩ ⟨[]⟩ ⟨[]⟩ (o.workers i) =
            .err e) →
        ∃ e, (Job.run cfg o).1 = .err e ∧
          ∃ i, i < cfg.num_jobs.getD 1 ∧
            workerLoop cfg.run_time o.prepElapsed 0 ⟨[]⟩ ⟨[]⟩ ⟨[]⟩ (o.workers i) =
              .err e) := by
  intro cfg o hop hrt hpo hsw hnofuel
  have hfst : (Job.run cfg o).1 =
      (Job.joinWorkers 0 ⟨[]⟩ ⟨[]⟩ ⟨[]⟩ ((List.range (cfg.num_jobs.getD 1)).map
        fun i => workerLoop cfg.run_time o.prepElapsed 0 ⟨[]⟩ ⟨[]⟩ ⟨[]⟩
          (o.workers i))).1 := by
    rw [Job.run_success_unfold cfg o hop hrt hpo hsw]
  rw [hfst]
  rcases joinWorkers_cases ((List.range (cfg.num_jobs.getD 1)).map
      fun i => workerLoop cfg.run_time o.prepElapsed 0 ⟨[]⟩ ⟨[]⟩ ⟨[]⟩
        (o.workers i)) 0 ⟨[]⟩ ⟨[]⟩ ⟨[]⟩ with hcase | hcase | hcase
  · obtain ⟨⟨b', l', o', hok⟩, hall⟩ := hcase
    constructor
    · constructor
      · intro _ i hi
        exact hall _ (List.mem_map.mpr ⟨i, List.mem_range.mpr hi, rfl⟩)
      · intro _
        exact ⟨b', l', o', hok⟩
    · rintro ⟨i, hi, e, herr⟩
      obtain ⟨b₀, l₀, o₀, hok₀⟩ :=
        hall _ (List.mem_map.mpr ⟨i, List.mem_range.mpr hi, rfl⟩)
      rw [herr] at hok₀
      exact absurd hok₀ (by simp)
  · obtain ⟨e, herr, hmem⟩ := hcase
    obtain ⟨i, hir, hvi⟩ := List.mem_map.mp hmem
    constructor
    · constructor
      · intro hok
        obtain ⟨b', l', o', hok⟩ := hok
        rw [herr] at hok
        exact absurd hok (by simp)
      · intro hallok
        obtain ⟨b₀, l₀, o₀, hok₀⟩ := hallok i (List.mem_range.mp hir)
        rw [hok₀] at hvi
        exact absurd hvi (by simp)
    · intro _
      exact ⟨e, herr, i, List.mem_range.mp hir, hvi⟩
  · obtain ⟨hfuel, hmem⟩ := hcase
    obtain ⟨i, hir, hvi⟩ := List.mem_map.mp hmem
    exact absurd hvi (hnofuel i (List.mem_range.mp hir))

/-- Witness for C6: one worker whose first operation fails makes the whole
run fail with that worker's error. -/
theorem C6_witness :
    ∃ e, (Job.run ⟨some 1, 1, .upload, 4096⟩
        ⟨"k", .ok (), .ok (), .ok (), .ok (), 0,
          fun _ => [.error ⟨"boom"⟩]⟩).1 = .err e ∧
      ∃ i, i < 1 ∧
        workerLoop 1 0 0 ⟨[]⟩ ⟨[]⟩ ⟨[]⟩ [.error ⟨"boom"⟩] = .err e :=
  (C6_whole_run_fails_on_any_worker_error ⟨some 1, 1, .upload, 4096⟩
      ⟨"k", .ok (), .ok (), .ok (), .ok (), 0, fun _ => [.error ⟨"boom"⟩]⟩
      rfl rfl rfl rfl (fun i _ h => by norm_num [workerLoop] at h; exact absurd h (by simp))).2
    ⟨0, by norm_num, ⟨"boom"⟩, by norm_num [workerLoop]⟩

/-- C7: for the Download workload the staging write of the payload to the
generated key happens exactly once, before any worker loop starts; if the
staging write fails, `Job::run` returns that error immediately, with zero
workers spawned and zero measurements recorded. -/
theorem C7_download_staging_failfast :
    ∀ (cfg : JobConfig) (o : JobOracle) (e : JobError),
      cfg.workload = .download →
      o.operatorBuild = .ok () → o.runtimeBuild = .ok () →
      o.prepOperatorBuild = .ok () →
      (o.stagingWrite = .error e →
        Job.run cfg o = (.err e,
          [Event.recordStart, Event.buildOperator, Event.buildRuntime,
            Event.prepBuildOperator, Event.stagingWrite]) ∧
        (∀ i, Event.spawnWorker i ∉ (Job.run cfg o).2) ∧
        (∀ i, Event.joinWorker i ∉ (Job.run cfg o).2)) ∧
      (o.stagingWrite = .ok () →
        (Job.run cfg o).2.count Event.stagingWrite = 1 ∧
        ∃ pre post, (Job.run cfg o).2 = pre ++ Event.stagingWrite :: post ∧
          (∀ i, Event.spawnWorker i ∉ pre) ∧
          Event.stagingWrite ∉ pre ∧ Event.stagingWrite ∉ post) := by
  intro cfg o e hw hop hrt hpo
  constructor
  · intro hsw
    have hrun : Job.run cfg o = (.err e,
        [Event.recordStart, Event.buildOperator, Event.buildRuntime,
          Event.prepBuildOperator, Event.stagingWrite]) := by
      simp [Job.run, Job.prepare_task, hop, hrt, hpo, hsw, hw]
    refine ⟨hrun, ?_, ?_⟩
    · intro i
      rw [hrun]
      simp
    · intro i
      rw [hrun]
      simp
  · intro hsw
    have hrun := Job.run_success_unfold cfg o hop hrt hpo hsw
    have hprep : (Job.prepare_task cfg o).2 =
        [Event.prepBuildOperator, Event.stagingWrite] := by
      simp [Job.prepare_task, hw, hpo, hsw]
    have hspawn : ∀ x ∈ (List.range (cfg.num_jobs.getD 1)).map Event.spawnWorker,
        x ≠ Event.stagingWrite := by
      intro x hx
      obtain ⟨i, _, hi⟩ := List.mem_map.mp hx
      rw [← hi]
      simp
    have hjoin : ∀ x ∈ (Job.joinWorkers 0 ⟨[]⟩ ⟨[]⟩ ⟨[]⟩
        ((List.range (cfg.num_jobs.getD 1)).map fun i =>
          workerLoop cfg.run_time o.prepElapsed 0 ⟨[]⟩ ⟨[]⟩ ⟨[]⟩
            (o.workers i))).2, x ≠ Event.stagingWrite := by
      intro x hx
      obtain ⟨k, hk⟩ := joinWorkers_events _ 0 _ _ _ _ hx
      rw [hk]
      simp
    constructor
    · rw [hrun]
      dsimp only
      rw [hprep]
      rw [List.count_append, List.count_append, List.count_append]
      rw [List.count_eq_zero.mpr (fun hmem => (hspawn _ hmem) rfl),
        List.count_eq_zero.mpr (fun hmem => (hjoin _ hmem) rfl)]
      rfl
    · refine ⟨[Event.recordStart, Event.buildOperator, Event.buildRuntime,
        Event.prepBuildOperator],
        (List.range (cfg.num_jobs.getD 1)).map Event.spawnWorker ++
          (Job.joinWorkers 0 ⟨[]⟩ ⟨[]⟩ ⟨[]⟩
            ((List.range (cfg.num_jobs.getD 1)).map fun i =>
              workerLoop cfg.run_time o.prepElapsed 0 ⟨[]⟩ ⟨[]⟩ ⟨[]⟩
                (o.workers i))).2, ?_, ?_, ?_, ?_⟩
      · rw [hrun]
        dsimp only
        rw [hprep]
        simp
      · intro i
        simp
      · simp
      · intro hmem
        rcases List.mem_append.mp hmem with hmem | hmem
        · exact (hspawn _ hmem) rfl
        · exact (hjoin _ hmem) rfl

/-- Witness for C7: a failing staging write aborts the run before any
worker is spawned. -/
theorem C7_witness :
    Job.run ⟨some 1, 1, .download, 4096⟩
        ⟨"k", .ok (), .ok (), .ok (), .error ⟨"stage"⟩, 0, fun _ => []⟩ =
      (.err ⟨"stage"⟩,
        [Event.recordStart, Event.buildOperator, Event.buildRuntime,
          Event.prepBuildOperator, Event.stagingWrite]) :=
  ((C7_download_staging_failfast ⟨some 1, 1, .download, 4096⟩
      ⟨"k", .ok (), .ok (), .ok (), .error ⟨"stage"⟩, 0, fun _ => []⟩
      ⟨"stage"⟩ rfl rfl rfl rfl).1 rfl).1

/-- C8: evaluation of the Upload arm of `Task::run` at config-valid payload
sizes (`validate` only requires `file_size ≥ 4096`). The arm allocates
`buff = vec![254u8; file_size]` and writes it `file_size / 4096` times, then
returns `file_size / 4096 * 4096`. At `file_size = 8192` one task execution
hands the writer two 8192-byte chunks (16384 bytes in total, not one write
of the 8192-byte payload) while returning 8192; at `file_size = 5000` it
writes one 5000-byte chunk but returns 4096 ≠ 5000. Only at
`file_size = 4096` does the claimed behaviour (one write of the payload,
return value = payload size) hold. -/
theorem C8_upload_write_evaluation :
    (JobTask.uploadRunEffect 4096).writes = [4096] ∧
    (JobTask.uploadRunEffect 4096).ret = 4096 ∧
    (JobTask.uploadRunEffect 8192).writes = [8192, 8192] ∧
    (JobTask.uploadRunEffect 8192).writes.sum = 16384 ∧
    (JobTask.uploadRunEffect 8192).ret = 8192 ∧
    (JobTask.uploadRunEffect 8192).writes ≠ [8192] ∧
    (JobTask.uploadRunEffect 5000).writes = [5000] ∧
    (JobTask.uploadRunEffect 5000).ret = 4096 ∧
    (JobTask.uploadRunEffect 5000).ret ≠ 5000 := by
  refine ⟨rfl, rfl, rfl, rfl, rfl, ?_, rfl, rfl, ?_⟩
  · simp [JobTask.uploadRunEffect]
  · simp [JobTask.uploadRunEffect]
